import Mathlib

/-!
Verification of the retrieval engine of `src/src/retrieve.py`
(`PostRetriever`): exact vector search, similarity scoring,
Maximal-Marginal-Relevance (MMR) diversification, and the persona/topic
query façade.

Modelling conventions.

* Python floats are modelled as exact rationals (`ℚ`); embedding vectors
  are lists of rationals.
* The OpenAI embedding client is an external collaborator and is modelled
  as an oracle (`EmbedClient`).  `embedQ` models the response of the
  single-query request issued by `generate_query_embedding`;
  `embedB` models the response of the batched request issued by
  `_get_batch_embeddings` *composed with* the L2 normalization that
  `_get_batch_embeddings` applies to it (lines 171-174 of retrieve.py);
  the provider's response is external data, so the composed map is the
  natural oracle boundary.  Where a property depends on normalization,
  concrete instantiations use rational unit vectors.
* The faiss library is an external dependency whose sources are not part
  of this repository.  `faissSearch` models `IndexFlatL2.search` from its
  documented contract (and spec §4.1): exact k-nearest-neighbour by
  squared Euclidean distance, ascending distance with ties broken by
  ascending positional index, and — as documented by faiss — result slots
  beyond `ntotal` are filled with label `-1` and distance `FLT_MAX`.
* Python exceptions (IndexError from list indexing, and the MMR `while`
  loop spinning forever when no pick is made in a round) are modelled with
  `Except RunErr`.  `pyGet` implements Python list indexing including
  negative indices.
* Each retrieval function also returns the list of embedding requests it
  issued (each request is the `input` list passed to
  `client.embeddings.create`), so that side-effect claims are statable.
-/

/-- Embedding vectors: lists of exact rationals standing for the float
arrays of the source. -/
abbrev Vec := List ℚ

/-- One metadata record of `chunks_metadata`: unique chunk identifier,
text body, and source metadata. -/
structure Chunk where
  chunk_id : ℕ
  text : String
  source : String
deriving DecidableEq

/-- A chunk returned by a `retrieve_*` call.  In Python the metadata dict
is copied and a score key may be added; absent keys are `none`. -/
structure RetrievedChunk where
  chunk : Chunk
  similarity_score : Option ℚ := none
  mmr_score : Option ℚ := none
deriving DecidableEq

/-- Non-normal termination of a retrieval call: a raised Python
`IndexError`, or the MMR `while` loop never exiting (it makes no progress
once a round selects nothing, so one such round means divergence). -/
inductive RunErr where
  | indexError
  | nonTermination
deriving DecidableEq

/-- State loaded by the `PostRetriever` constructor: the faiss index rows
and the parallel `chunks_metadata` list. -/
structure RetrieverState where
  vectors : List Vec
  chunks_metadata : List Chunk
deriving DecidableEq

/-- A well-formed persisted index: the metadata list is parallel to the
vector matrix (spec §6: same row count, row `i` ↔ record `i`). -/
def RetrieverState.valid (st : RetrieverState) : Prop :=
  st.chunks_metadata.length = st.vectors.length

/-- The external embedding provider, as seen through the two call sites of
retrieve.py (see the module docstring above for the `embedB` boundary). -/
structure EmbedClient where
  embedQ : String → Vec
  embedB : List String → List Vec

/-- Python list indexing `l[i]`: non-negative indices from the front,
negative indices from the back, `none` for an IndexError. -/
def pyGet (l : List α) (i : ℤ) : Option α :=
  if 0 ≤ i then l.get? i.toNat
  else if 0 ≤ i + l.length then l.get? (i + l.length).toNat
  else none

/-- Dot product (`np.dot`) of two rational vectors. -/
def dot (u v : Vec) : ℚ := (List.zipWith (· * ·) u v).sum

/-- Squared Euclidean distance, the metric of `faiss.IndexFlatL2`. -/
def sqDist (u v : Vec) : ℚ := (List.zipWith (fun a b => (a - b) * (a - b)) u v).sum

/-- The distance filled into search-result slots beyond `ntotal`:
`FLT_MAX`, as an exact rational. -/
def fltMax : ℚ := 340282346638528859811704183484516925440

/-- All (positional index, squared distance to the query) pairs of an
index. -/
def scoredEntries (vecs : List Vec) (q : Vec) : List (ℤ × ℚ) :=
  (List.range vecs.length).map (fun (i : ℕ) => ((i : ℤ), sqDist q (vecs.getD i [])))

/-- Search ordering: ascending distance, ties by ascending positional
index. -/
def keyLT (a b : ℤ × ℚ) : Prop := a.2 < b.2 ∨ (a.2 = b.2 ∧ a.1 < b.1)

instance (a b : ℤ × ℚ) : Decidable (keyLT a b) := by
  unfold keyLT; infer_instance

/-- Insert one entry into a list sorted by `keyLT`. -/
def insertKey (x : ℤ × ℚ) : List (ℤ × ℚ) → List (ℤ × ℚ)
  | [] => [x]
  | y :: ys => if keyLT x y then x :: y :: ys else y :: insertKey x ys

/-- Insertion sort by `keyLT`. -/
def sortKey : List (ℤ × ℚ) → List (ℤ × ℚ)
  | [] => []
  | x :: xs => insertKey x (sortKey xs)

/-- `index.search(query, k)` of `faiss.IndexFlatL2`: the `min k N`
nearest entries in ascending (distance, index) order, padded to exactly
`k` result slots with `(-1, FLT_MAX)`. -/
def faissSearch (vecs : List Vec) (q : Vec) (k : ℕ) : List (ℤ × ℚ) :=
  let t := (sortKey (scoredEntries vecs q)).take k
  t ++ List.replicate (k - t.length) (-1, fltMax)

/-- `1 / (1 + distance)`, the distance-to-similarity transform used at
lines 91 and 140 of retrieve.py. -/
def score (d : ℚ) : ℚ := 1 / (1 + d)

/-- `generate_query_embedding`: one embedding request with input
`[query]`. -/
def generate_query_embedding (cl : EmbedClient) (query : String) :
    Vec × List (List String) :=
  (cl.embedQ query, [[query]])

/-- `_get_batch_embeddings`: one embedding request with the given texts as
input; the oracle output stands for the normalized response (see module
docstring). -/
def get_batch_embeddings (cl : EmbedClient) (texts : List String) :
    List Vec × List (List String) :=
  (cl.embedB texts, [texts])

/-- The result-building loop of `retrieve_similar` (lines 87-93): for each
`(idx, distance)` of the search result, if `idx < len(chunks_metadata)`
the record `chunks_metadata[idx]` is copied and given
`similarity_score = 1/(1+distance)`.  Note `-1 < len` holds, so sentinel
slots are not filtered out. -/
def simResults (md : List Chunk) : List (ℤ × ℚ) → Except RunErr (List RetrievedChunk)
  | [] => .ok []
  | (idx, d) :: rest =>
    if idx < (md.length : ℤ) then
      match pyGet md idx with
      | none => .error .indexError
      | some c =>
        (simResults md rest).map
          (fun rs => { chunk := c, similarity_score := some (score d) } :: rs)
    else simResults md rest

/-- `PostRetriever.retrieve_similar` (lines 69-94). -/
def retrieve_similar (cl : EmbedClient) (st : RetrieverState) (query : String)
    (top_k : ℕ) : Except RunErr (List RetrievedChunk) × List (List String) :=
  let qe := (generate_query_embedding cl query).1
  (simResults st.chunks_metadata (faissSearch st.vectors qe top_k),
    (generate_query_embedding cl query).2)

/-- The comprehension of line 116:
`[chunks_metadata[idx] for idx in candidate_indices if idx < len(chunks_metadata)]`. -/
def candChunks (md : List Chunk) : List ℤ → Except RunErr (List Chunk)
  | [] => .ok []
  | idx :: rest =>
    if idx < (md.length : ℤ) then
      match pyGet md idx with
      | none => .error .indexError
      | some c => (candChunks md rest).map (fun cs => c :: cs)
    else candChunks md rest

/-- Cosine similarity of candidate `i` to the already-selected index value
`s` (line 146-147): the dot product of batch embedding `i` with the batch
embedding at the first position of `s` in `candidate_indices`. -/
def simToSelected (cand : List (ℤ × ℚ)) (cemb : List Vec) (i : ℕ) (s : ℤ) : ℚ :=
  dot (cemb.getD i []) (cemb.getD ((cand.map Prod.fst).findIdx (fun x => x == s)) [])

/-- The MMR score computed for candidate position `i` in one round of the
loop (lines 139-151): `max_sim` starts at `0` and folds `max` over the
already-selected entries, so it is the *clamped* redundancy term. -/
def mmrScore (lam : ℚ) (cand : List (ℤ × ℚ)) (cemb : List Vec)
    (sel : List ℤ) (i : ℕ) : ℚ :=
  let relevance := score (cand.getD i (-1, 0)).2
  let maxSim := sel.foldl (fun m s => max m (simToSelected cand cemb i s)) 0
  lam * relevance - (1 - lam) * maxSim

/-- One step of the best-candidate scan (lines 135-155): skip selected
index values, otherwise replace the running best only on a strictly
greater score (`>` at line 153), so the first position attaining the
maximum wins. -/
def bestStep (lam : ℚ) (cand : List (ℤ × ℚ)) (cemb : List Vec) (sel : List ℤ)
    (acc : Option (ℕ × ℚ)) (i : ℕ) : Option (ℕ × ℚ) :=
  if (cand.getD i (-1, 0)).1 ∈ sel then acc
  else
    let s := mmrScore lam cand cemb sel i
    match acc with
    | none => some (i, s)
    | some (_, bs) => if bs < s then some (i, s) else acc

/-- The full scan of one round: `best_idx` and `best_score` after the
`for` loop over `enumerate(candidate_indices)`. -/
def mmrBest (lam : ℚ) (cand : List (ℤ × ℚ)) (cemb : List Vec) (sel : List ℤ) :
    Option (ℕ × ℚ) :=
  (List.range cand.length).foldl (bestStep lam cand cemb sel) none

/-- The `while` loop of lines 131-161.  `fuel` is initialized to `top_k`;
since every productive round grows `sel` by one and the guard requires
`sel.length < top_k`, fuel is never exhausted with the guard true.  A
round that selects nothing leaves the loop state unchanged, so the Python
loop would spin forever: modelled by `RunErr.nonTermination`. -/
def mmrLoop (lam : ℚ) (cand : List (ℤ × ℚ)) (cemb : List Vec) (cch : List Chunk)
    (top_k : ℕ) :
    ℕ → List ℤ → List RetrievedChunk → Except RunErr (List RetrievedChunk)
  | 0, _, acc => .ok acc
  | fuel + 1, sel, acc =>
    if sel.length < top_k ∧ sel.length < cand.length then
      match mmrBest lam cand cemb sel with
      | none => .error .nonTermination
      | some (i, s) =>
        match pyGet cch (i : ℤ) with
        | none => .error .indexError
        | some c =>
          mmrLoop lam cand cemb cch top_k fuel (sel ++ [(cand.getD i (-1, 0)).1])
            (acc ++ [{ chunk := c, mmr_score := some s }])
    else .ok acc

/-- `PostRetriever.retrieve_with_mmr` (lines 96-163).  The seed
(`candidate_indices[0]`, `candidate_chunks[0]`, lines 124-125) is appended
before the batch-embedding call, and without any score key. -/
def retrieve_with_mmr (cl : EmbedClient) (st : RetrieverState) (query : String)
    (top_k : ℕ) (lambda_mult : ℚ) (fetch_k : ℕ) :
    Except RunErr (List RetrievedChunk) × List (List String) :=
  let qe := (generate_query_embedding cl query).1
  let cand := faissSearch st.vectors qe fetch_k
  match candChunks st.chunks_metadata (cand.map Prod.fst) with
  | .error e => (.error e, (generate_query_embedding cl query).2)
  | .ok cch =>
    match (cand.map Prod.fst).head?, cch.head? with
    | some i0, some c0 =>
      let be := get_batch_embeddings cl (cch.map Chunk.text)
      (mmrLoop lambda_mult cand be.1 cch top_k top_k [i0] [{ chunk := c0 }],
        (generate_query_embedding cl query).2 ++ be.2)
    | _, _ => (.error .indexError, (generate_query_embedding cl query).2)

/-- The `persona_info` dictionary as consumed by `retrieve_with_context`:
`dict.get` misses are `none`. -/
structure PersonaInfo where
  name : Option String := none
  title : Option String := none
  company : Option String := none
  industry : Option String := none

/-- The contextual query f-string of lines 192-196, with the `.get`
defaults `'Professional'`, `''`, `''`. -/
def buildContextQuery (p : PersonaInfo) (topic : String) : String :=
  "\n        Person: " ++ p.name.getD "Professional" ++
  "\n        Role: " ++ p.title.getD "" ++ " at " ++ p.company.getD "" ++
  "\n        Topic: " ++ topic ++ "\n        "

/-- `PostRetriever.retrieve_with_context` (lines 177-201): builds the
query and dispatches; the MMR branch passes only `top_k`, so
`lambda_mult` and `fetch_k` take their declared defaults `0.5` and `20`. -/
def retrieve_with_context (cl : EmbedClient) (st : RetrieverState)
    (persona_info : PersonaInfo) (topic : String) (top_k : ℕ) (use_mmr : Bool) :
    Except RunErr (List RetrievedChunk) × List (List String) :=
  let query := buildContextQuery persona_info topic
  if use_mmr then retrieve_with_mmr cl st query top_k (1/2) 20
  else retrieve_similar cl st query top_k

/-- The spec's literal MMR formula (spec §4.3):
`λ·relevance − (1−λ)·max_{s ∈ selected} cos_sim`, the maximum taken over
the selected items only — no clamping at zero. -/
def claimMMR (lam relevance : ℚ) (sims : List ℚ) : ℚ :=
  lam * relevance - (1 - lam) * (sims.maximum.unbot' 0)

/-! ## General lemmas -/

/-- A left fold of `max` equals the clamp of the list maximum at the seed
value. -/
theorem foldl_max_init (l : List ℚ) (a b : ℚ) :
    l.foldl max (max a b) = max a (l.foldl max b) := by
  induction l generalizing b with
  | nil => rfl
  | cons y ys ih => rw [List.foldl_cons, List.foldl_cons, max_assoc, ih]

theorem foldl_max_unbot (l : List ℚ) (c : ℚ) :
    l.foldl max c = max c (l.maximum.unbot' c) := by
  cases l with
  | nil =>
    have h : (List.maximum ([] : List ℚ)).unbot' c = c := rfl
    rw [List.foldl_nil, h, max_self]
  | cons x xs =>
    rw [← List.getD_max?_eq_unbot'_maximum]
    have hmx : List.max? (x :: xs) = some (xs.foldl max x) := rfl
    rw [hmx, Option.getD_some, List.foldl_cons]
    exact foldl_max_init xs c x

/-- C6 — the similarity transform: every `retrieve_similar` result carries
`similarity_score = 1/(1+distance)` for its search distance; distance `0`
scores exactly `1`; for non-negative distance the score is in `(0, 1]`;
and the score is strictly decreasing in the distance. -/
theorem similarity_score_spec :
    score 0 = 1 ∧
    (∀ d : ℚ, 0 ≤ d → 0 < score d ∧ score d ≤ 1) ∧
    (∀ d1 d2 : ℚ, 0 ≤ d1 → d1 < d2 → score d2 < score d1) ∧
    (∀ (md : List Chunk) (pairs : List (ℤ × ℚ)) (rs : List RetrievedChunk),
      simResults md pairs = .ok rs →
      ∀ r ∈ rs, ∃ p ∈ pairs, r.similarity_score = some (score p.2) ∧
        pyGet md p.1 = some r.chunk) := by
  refine ⟨by norm_num [score], ?_, ?_, ?_⟩
  · intro d hd
    constructor
    · exact div_pos one_pos (by linarith)
    · rw [score, div_le_one (by linarith)]
      linarith
  · intro d1 d2 h1 h12
    exact one_div_lt_one_div_of_lt (by linarith) (by linarith)
  · intro md pairs
    induction pairs with
    | nil =>
      intro rs h r hr
      simp only [simResults] at h
      cases h
      simp at hr
    | cons p rest ih =>
      intro rs h r hr
      obtain ⟨i, d⟩ := p
      simp only [simResults] at h
      by_cases hc : (i : ℤ) < (md.length : ℤ)
      · rw [if_pos hc] at h
        cases hg : pyGet md i with
        | none => rw [hg] at h; cases h
        | some c =>
          rw [hg] at h
          cases hrest : simResults md rest with
          | error e => rw [hrest] at h; cases h
          | ok rs' =>
            rw [hrest] at h
            simp only [Except.map] at h
            cases h
            rcases List.mem_cons.mp hr with h1 | h2
            · exact ⟨(i, d), List.mem_cons_self _ _, by simp [h1], by simp [h1, hg]⟩
            · obtain ⟨q, hq, hsc, hch⟩ := ih rs' hrest r h2
              exact ⟨q, List.mem_cons_of_mem _ hq, hsc, hch⟩
      · rw [if_neg hc] at h
        obtain ⟨q, hq, hsc, hch⟩ := ih rs h r hr
        exact ⟨q, List.mem_cons_of_mem _ hq, hsc, hch⟩

/-- C1 (amended) — the score computed and maximized by the MMR loop is
`λ·(1/(1+distance)) − (1−λ)·max(0, max_{s ∈ selected} cos_sim)`: because
`max_sim` is initialized to `0` (line 143), the redundancy term is the
maximum over the selected items *clamped at zero*, not the plain maximum. -/
theorem mmr_score_clamped_formula :
    ∀ (lam : ℚ) (cand : List (ℤ × ℚ)) (cemb : List Vec) (sel : List ℤ) (i : ℕ),
      mmrScore lam cand cemb sel i =
        lam * score (cand.getD i (-1, 0)).2 -
          (1 - lam) * max 0 (((sel.map (simToSelected cand cemb i)).maximum).unbot' 0) := by
  intro lam cand cemb sel i
  rw [mmrScore]
  have h1 : sel.foldl (fun m s => max m (simToSelected cand cemb i s)) 0 =
      (sel.map (simToSelected cand cemb i)).foldl max 0 := by
    rw [List.foldl_map]
  rw [h1, foldl_max_unbot]

/-- C10 — `retrieve_with_context` builds the query as a pure concatenation
of persona name, title, company (with `'Professional'` and empty-string
defaults) and the topic; it never reads `industry`; and it dispatches with
the hard-coded defaults `lambda_mult = 1/2`, `fetch_k = 20` when
`use_mmr`, with no parameter through which a caller could override them. -/
theorem retrieve_with_context_dispatch :
    (∀ cl st p topic top_k,
      retrieve_with_context cl st p topic top_k true =
        retrieve_with_mmr cl st (buildContextQuery p topic) top_k (1/2) 20) ∧
    (∀ cl st p topic top_k,
      retrieve_with_context cl st p topic top_k false =
        retrieve_similar cl st (buildContextQuery p topic) top_k) ∧
    (∀ p topic ind,
      buildContextQuery { p with industry := ind } topic = buildContextQuery p topic) ∧
    (∀ topic, buildContextQuery {} topic =
      "\n        Person: Professional\n        Role:  at \n        Topic: " ++
        topic ++ "\n        ") := by
  refine ⟨fun cl st p topic top_k => rfl, fun cl st p topic top_k => rfl,
    fun p topic ind => rfl, fun topic => rfl⟩

/-! ## Concrete fixtures

Small concrete indices and stub embedding clients, used to run the
embedded functions on explicit inputs. -/

/-- A chunk with identifier 0. -/
def chA0 : Chunk := ⟨0, "a", "s"⟩

/-- A chunk with identifier 1. -/
def chA1 : Chunk := ⟨1, "b", "s"⟩

/-- A chunk with identifier 2. -/
def chC2 : Chunk := ⟨2, "c", "s"⟩

/-- Two-chunk index at distances 0 and 1 from the stub query vector. -/
def stA : RetrieverState := ⟨[[0, 0], [1, 0]], [chA0, chA1]⟩

/-- Stub client whose batch embeddings are the antipodal unit vectors
`[1,0]` and `[-1,0]` (cosine similarity `-1`). -/
def clA : EmbedClient := ⟨fun _ => [0, 0], fun _ => [[1, 0], [-1, 0]]⟩

/-- Two-chunk one-dimensional index at distances 0 and 1. -/
def stB : RetrieverState := ⟨[[0], [1]], [chA0, chA1]⟩

/-- Stub client returning the unit vector `[1]` for every candidate. -/
def clB : EmbedClient := ⟨fun _ => [0], fun _ => [[1], [1], [1], [1]]⟩

/-- Three-chunk index: entries 0 and 2 at distance 0, entry 1 at
distance 4. -/
def stC : RetrieverState := ⟨[[0, 0], [2, 0], [0, 0]], [chA0, chA1, chC2]⟩

/-- Stub client giving pool-position embeddings `[1,0]`, `[4/5,3/5]`,
`[0,1]` (unit vectors). -/
def clC : EmbedClient := ⟨fun _ => [0, 0], fun _ => [[1, 0], [4/5, 3/5], [0, 1]]⟩

/-- Single-chunk index. -/
def stD : RetrieverState := ⟨[[0]], [chA0]⟩

/-- Stub client for the single-chunk index. -/
def clD : EmbedClient := ⟨fun _ => [0], fun _ => []⟩

/-- The zero-entry index. -/
def stE : RetrieverState := ⟨[], []⟩

/-- C5 — on a zero-entry index both retrieval functions raise: every
search slot is the sentinel `(-1, FLT_MAX)`, `-1 < 0 = len(metadata)`
passes the guard, and `metadata[-1]` on the empty list is an IndexError
(retrieve.py line 90 resp. line 116).  The claim says both return an
empty sequence and never raise. -/
theorem empty_index_raises :
    (retrieve_similar clD stE "q" 5).1 = .error .indexError ∧
    (retrieve_with_mmr clD stE "q" 5 (1/2) 20).1 = .error .indexError :=
  ⟨rfl, rfl⟩

/-- C2 — failing input for `retrieve_similar`: a one-entry index queried
with `top_k = 2`.  The sentinel slot `(-1, FLT_MAX)` passes the
`idx < len(chunks_metadata)` guard and `chunks_metadata[-1]` resolves to
the last chunk, so the call returns two results — a duplicate of the
single indexed chunk — instead of `min(top_k, N) = 1` distinct results. -/
theorem retrieve_similar_sentinel_overflow :
    (retrieve_similar clD stD "q" 2).1 =
      .ok [{ chunk := chA0, similarity_score := some (score 0) },
           { chunk := chA0, similarity_score := some (score fltMax) }] ∧
    score 0 = 1 ∧
    stD.chunks_metadata.length = 1 ∧ (2 : ℕ) ≠ min 2 1 := by
  refine ⟨?_, by norm_num [score], by simp [stD], by decide⟩
  simp [retrieve_similar, generate_query_embedding, faissSearch, scoredEntries,
    sqDist, sortKey, insertKey, keyLT, simResults, pyGet, stD, clD,
    List.range_succ, Except.map]

/-- C1 — counterexample to the unclamped formula.  On the two-chunk index
`stA` with batch embeddings `[1,0]` and `[-1,0]` (cosine similarity
`-1 < 0`) and `λ = 1/2`, the second selected candidate has distance `1`,
so the claim's formula `λ·relevance − (1−λ)·max_{s} cos_sim` gives
`1/2·1/2 − 1/2·(−1) = 3/4`; the code records `1/4` because `max_sim`
is clamped at `0`. -/
theorem mmr_score_clamp_cex :
    (retrieve_with_mmr clA stA "q" 2 (1/2) 2).1 =
      .ok [{ chunk := chA0 },
           { chunk := chA1, mmr_score := some (1/4) }] ∧
    dot [-1, 0] [1, 0] = -1 ∧
    claimMMR (1/2) (score 1) [dot [-1, 0] [1, 0]] = 3/4 ∧
    ((1 : ℚ)/4 ≠ 3/4) := by
  refine ⟨?_, by norm_num [dot], ?_, by norm_num⟩
  · norm_num [retrieve_with_mmr, generate_query_embedding, get_batch_embeddings,
      faissSearch, scoredEntries, sqDist, sortKey, insertKey, keyLT, candChunks,
      pyGet, mmrLoop, mmrBest, bestStep, mmrScore, simToSelected, dot, score,
      stA, clA, List.range_succ, List.findIdx_cons, Except.map]
  · norm_num [claimMMR, dot, score, List.maximum_cons, List.maximum_nil,
      WithBot.unbot']

/-- C3 — counterexample: `λ = 1 ∈ [0,1]`, a fetched candidate pool of
size `fetch_k = 4 ≥ top_k = 3` (two real entries plus two sentinel
slots), yet the returned chunk identifiers are `[0, 1, 1]`: the sentinel
value `-1` is selectable once, and `chunks_metadata[-1]` duplicates the
last chunk, so the results are not pairwise distinct. -/
theorem mmr_duplicate_chunks_cex :
    ((retrieve_with_mmr clB stB "q" 3 1 4).1.map
        (fun rs => rs.map (fun r => r.chunk.chunk_id))) = .ok [0, 1, 1] ∧
    (faissSearch stB.vectors (clB.embedQ "q") 4).length = 4 ∧
    ((0 : ℚ) ≤ 1 ∧ (1 : ℚ) ≤ 1) ∧
    ¬ ([0, 1, 1] : List ℕ).Nodup := by
  refine ⟨?_, ?_, by norm_num, by decide⟩
  · norm_num [retrieve_with_mmr, generate_query_embedding, get_batch_embeddings,
      faissSearch, scoredEntries, sqDist, sortKey, insertKey, keyLT, candChunks,
      pyGet, mmrLoop, mmrBest, bestStep, mmrScore, simToSelected, dot, score,
      fltMax, stB, clB, chA0, chA1, List.range_succ, List.findIdx_cons, Except.map]
    all_goals decide
  · norm_num [faissSearch, scoredEntries, sqDist, sortKey, insertKey, keyLT,
      stB, clB, List.range_succ]

/-- C7 — counterexample to the smallest-original-index tie-break.  On
`stC`, after the seed (index 0), pool position 1 (original index 2,
distance 0) and pool position 2 (original index 1, distance 4) both score
exactly `1/10`, and the code selects original index `2` — the earlier
*pool* position — although the tied original index `1` is smaller. -/
theorem mmr_tie_pool_order_cex :
    (retrieve_with_mmr clC stC "q" 2 (1/2) 3).1 =
      .ok [{ chunk := chA0 }, { chunk := chC2, mmr_score := some (1/10) }] ∧
    mmrScore (1/2) (faissSearch stC.vectors (clC.embedQ "q") 3)
      (clC.embedB ["a", "c", "b"]) [0] 1 = 1/10 ∧
    mmrScore (1/2) (faissSearch stC.vectors (clC.embedQ "q") 3)
      (clC.embedB ["a", "c", "b"]) [0] 2 = 1/10 ∧
    (faissSearch stC.vectors (clC.embedQ "q") 3).map Prod.fst = [0, 2, 1] ∧
    ((1 : ℤ) < 2) := by
  refine ⟨?_, ?_, ?_, ?_, by decide⟩
  · norm_num [retrieve_with_mmr, generate_query_embedding, get_batch_embeddings,
      faissSearch, scoredEntries, sqDist, sortKey, insertKey, keyLT, candChunks,
      pyGet, mmrLoop, mmrBest, bestStep, mmrScore, simToSelected, dot, score,
      stC, clC, chA0, chA1, chC2, List.range_succ, List.findIdx_cons, Except.map]
    all_goals decide
  · norm_num [mmrScore, simToSelected, dot, score, faissSearch, scoredEntries,
      sqDist, sortKey, insertKey, keyLT, stC, clC, List.range_succ,
      List.findIdx_cons]
  · norm_num [mmrScore, simToSelected, dot, score, faissSearch, scoredEntries,
      sqDist, sortKey, insertKey, keyLT, stC, clC, List.range_succ,
      List.findIdx_cons]
  · norm_num [faissSearch, scoredEntries, sqDist, sortKey, insertKey, keyLT,
      stC, clC, List.range_succ]

/-- C8 — counterexample: in a successful `retrieve_with_mmr` call the
first (seed) element carries no `mmr_score` at all — only the elements
selected by the loop do (the seed is appended at lines 124-125 without a
score key). -/
theorem seed_lacks_mmr_score_cex :
    ((retrieve_with_mmr clA stA "q" 2 (1/2) 2).1.map
        (fun rs => rs.map RetrievedChunk.mmr_score)) = .ok [none, some (1/4)] := by
  norm_num [retrieve_with_mmr, generate_query_embedding, get_batch_embeddings,
    faissSearch, scoredEntries, sqDist, sortKey, insertKey, keyLT, candChunks,
    pyGet, mmrLoop, mmrBest, bestStep, mmrScore, simToSelected, dot, score,
    stA, clA, List.range_succ, List.findIdx_cons, Except.map]

/-- C9 — counterexample: a single `retrieve_with_mmr` call issues two
embedding requests, not one: the query request `["q"]` and the batched
candidate request `["a", "b"]` from `_get_batch_embeddings`
(line 129). -/
theorem mmr_two_embedding_calls_cex :
    (retrieve_with_mmr clA stA "q" 2 (1/2) 2).2 = [["q"], ["a", "b"]] ∧
    (retrieve_with_mmr clA stA "q" 2 (1/2) 2).2.length = 2 ∧
    (2 : ℕ) ≠ 1 := by
  have h : (retrieve_with_mmr clA stA "q" 2 (1/2) 2).2 = [["q"], ["a", "b"]] := by
    norm_num [retrieve_with_mmr, generate_query_embedding, get_batch_embeddings,
      faissSearch, scoredEntries, sqDist, sortKey, insertKey, keyLT, candChunks,
      pyGet, stA, clA, chA0, chA1, List.range_succ, Except.map]
  exact ⟨h, by rw [h]; rfl, by decide⟩

/-! ## Order and sorting machinery for the search model -/

/-- Non-strict version of the search ordering. -/
def keyLE (a b : ℤ × ℚ) : Prop := a.2 < b.2 ∨ (a.2 = b.2 ∧ a.1 ≤ b.1)

theorem keyLE_refl (a : ℤ × ℚ) : keyLE a a := Or.inr ⟨rfl, le_refl _⟩

theorem keyLE_trans {a b c : ℤ × ℚ} (h1 : keyLE a b) (h2 : keyLE b c) : keyLE a c := by
  rcases h1 with h1 | ⟨e1, l1⟩ <;> rcases h2 with h2 | ⟨e2, l2⟩
  · exact Or.inl (lt_trans h1 h2)
  · exact Or.inl (by rw [← e2]; exact h1)
  · exact Or.inl (by rw [e1]; exact h2)
  · exact Or.inr ⟨e1.trans e2, le_trans l1 l2⟩

theorem keyLT_keyLE {a b : ℤ × ℚ} (h : keyLT a b) : keyLE a b := by
  rcases h with h | ⟨e, l⟩
  · exact Or.inl h
  · exact Or.inr ⟨e, le_of_lt l⟩

theorem keyLE_of_not_keyLT {a b : ℤ × ℚ} (h : ¬ keyLT a b) : keyLE b a := by
  rw [keyLT, not_or] at h
  obtain ⟨h1, h2⟩ := h
  rcases lt_or_eq_of_le (le_of_not_lt h1) with hlt | heq
  · exact Or.inl hlt
  · rw [not_and] at h2
    exact Or.inr ⟨heq, le_of_not_lt (h2 heq.symm)⟩

theorem mem_insertKey {x y : ℤ × ℚ} {l : List (ℤ × ℚ)} :
    y ∈ insertKey x l ↔ y = x ∨ y ∈ l := by
  induction l with
  | nil => simp [insertKey]
  | cons z zs ih =>
    by_cases h : keyLT x z
    · rw [insertKey, if_pos h]
      simp [or_assoc]
    · rw [insertKey, if_neg h]
      simp only [List.mem_cons, ih]
      tauto

theorem sorted_insertKey {x : ℤ × ℚ} {l : List (ℤ × ℚ)} (h : l.Sorted keyLE) :
    (insertKey x l).Sorted keyLE := by
  induction l with
  | nil => simp [insertKey]
  | cons y ys ih =>
    rw [List.sorted_cons] at h
    obtain ⟨hy, hys⟩ := h
    by_cases hxy : keyLT x y
    · rw [insertKey, if_pos hxy, List.sorted_cons]
      refine ⟨?_, List.sorted_cons.mpr ⟨hy, hys⟩⟩
      intro b hb
      rcases List.mem_cons.mp hb with rfl | hbys
      · exact keyLT_keyLE hxy
      · exact keyLE_trans (keyLT_keyLE hxy) (hy b hbys)
    · rw [insertKey, if_neg hxy, List.sorted_cons]
      refine ⟨?_, ih hys⟩
      intro b hb
      rcases mem_insertKey.mp hb with rfl | hbys
      · exact keyLE_of_not_keyLT hxy
      · exact hy b hbys

theorem sorted_sortKey (l : List (ℤ × ℚ)) : (sortKey l).Sorted keyLE := by
  induction l with
  | nil => simp [sortKey]
  | cons x xs ih =>
    rw [sortKey]
    exact sorted_insertKey ih

theorem insertKey_perm (x : ℤ × ℚ) (l : List (ℤ × ℚ)) : List.Perm (insertKey x l) (x :: l) := by
  induction l with
  | nil => exact List.Perm.refl _
  | cons y ys ih =>
    by_cases h : keyLT x y
    · rw [insertKey, if_pos h]
    · rw [insertKey, if_neg h]
      exact (ih.cons y).trans (List.Perm.swap x y ys)

theorem sortKey_perm (l : List (ℤ × ℚ)) : List.Perm (sortKey l) l := by
  induction l with
  | nil => exact List.Perm.refl _
  | cons x xs ih =>
    rw [sortKey]
    exact (insertKey_perm x (sortKey xs)).trans (ih.cons x)

/-! ## Facts about the search model -/

theorem scoredEntries_length (vecs : List Vec) (q : Vec) :
    (scoredEntries vecs q).length = vecs.length := by
  simp [scoredEntries]

theorem scoredEntries_map_fst (vecs : List Vec) (q : Vec) :
    (scoredEntries vecs q).map Prod.fst =
      (List.range vecs.length).map (fun (i : ℕ) => (i : ℤ)) := by
  simp [scoredEntries, List.map_map]

theorem scoredEntries_fst_nodup (vecs : List Vec) (q : Vec) :
    ((scoredEntries vecs q).map Prod.fst).Nodup := by
  rw [scoredEntries_map_fst]
  exact (List.nodup_range _).map (fun a b h => by exact_mod_cast h)

theorem scoredEntries_bounds (vecs : List Vec) (q : Vec) :
    ∀ p ∈ scoredEntries vecs q, 0 ≤ p.1 ∧ p.1 < (vecs.length : ℤ) := by
  intro p hp
  simp only [scoredEntries, List.mem_map, List.mem_range] at hp
  obtain ⟨i, hi, rfl⟩ := hp
  refine ⟨Int.natCast_nonneg i, ?_⟩
  show (i : ℤ) < (vecs.length : ℤ)
  exact_mod_cast hi

theorem sortKey_scored_length (vecs : List Vec) (q : Vec) :
    (sortKey (scoredEntries vecs q)).length = vecs.length :=
  ((sortKey_perm _).length_eq).trans (scoredEntries_length vecs q)

theorem faissSearch_eq_take {k : ℕ} (vecs : List Vec) (q : Vec)
    (h : k ≤ vecs.length) :
    faissSearch vecs q k = (sortKey (scoredEntries vecs q)).take k := by
  rw [faissSearch]
  have ht : ((sortKey (scoredEntries vecs q)).take k).length = k := by
    rw [List.length_take, sortKey_scored_length]
    omega
  simp [ht]

theorem faissSearch_length (vecs : List Vec) (q : Vec) (k : ℕ) :
    (faissSearch vecs q k).length = k := by
  rw [faissSearch]
  simp only [List.length_append, List.length_replicate]
  have := List.length_take_le k (sortKey (scoredEntries vecs q))
  omega

theorem faissSearch_fst_nodup {k : ℕ} (vecs : List Vec) (q : Vec)
    (h : k ≤ vecs.length) :
    ((faissSearch vecs q k).map Prod.fst).Nodup := by
  rw [faissSearch_eq_take vecs q h]
  have hnd : ((sortKey (scoredEntries vecs q)).map Prod.fst).Nodup :=
    ((sortKey_perm _).map Prod.fst).nodup_iff.mpr (scoredEntries_fst_nodup vecs q)
  exact hnd.sublist ((List.take_sublist _ _).map _)

theorem faissSearch_bounds {k : ℕ} (vecs : List Vec) (q : Vec)
    (h : k ≤ vecs.length) :
    ∀ p ∈ faissSearch vecs q k, 0 ≤ p.1 ∧ p.1 < (vecs.length : ℤ) := by
  rw [faissSearch_eq_take vecs q h]
  intro p hp
  exact scoredEntries_bounds vecs q p
    ((sortKey_perm _).mem_iff.mp (List.mem_of_mem_take hp))

/-! ## The best-candidate scan -/

theorem exists_unselected (ids sel : List ℤ) (hnd : ids.Nodup)
    (hlen : sel.length < ids.length) : ∃ v ∈ ids, v ∉ sel := by
  by_contra hc
  push_neg at hc
  have h1 : ids.toFinset.card = ids.length := List.toFinset_card_of_nodup hnd
  have h2 : ids.toFinset ⊆ sel.toFinset := by
    intro x hx
    rw [List.mem_toFinset] at hx ⊢
    exact hc x hx
  have h3 := Finset.card_le_card h2
  have h4 := List.toFinset_card_le sel
  omega

/-- Behaviour of the scan of lines 135-155: if it returns `none`, every
candidate position holds an already-selected index value; if it returns
`some (i, s)` then `i` is an unselected position, `s` is its MMR score,
no unselected position scores strictly higher, and every *earlier*
unselected position scores strictly lower (the strict `>` keeps the first
maximizer). -/
theorem mmrBest_spec (lam : ℚ) (cand : List (ℤ × ℚ)) (cemb : List Vec)
    (sel : List ℤ) :
    (mmrBest lam cand cemb sel = none →
      ∀ j < cand.length, (cand.getD j (-1, 0)).1 ∈ sel) ∧
    (∀ i s, mmrBest lam cand cemb sel = some (i, s) →
      i < cand.length ∧ (cand.getD i (-1, 0)).1 ∉ sel ∧
      s = mmrScore lam cand cemb sel i ∧
      (∀ j < cand.length, (cand.getD j (-1, 0)).1 ∉ sel →
        mmrScore lam cand cemb sel j ≤ s) ∧
      (∀ j < i, (cand.getD j (-1, 0)).1 ∉ sel →
        mmrScore lam cand cemb sel j < s)) := by
  have key : ∀ n : ℕ,
      ((List.range n).foldl (bestStep lam cand cemb sel) none = none →
        ∀ j < n, (cand.getD j (-1, 0)).1 ∈ sel) ∧
      (∀ i s,
        (List.range n).foldl (bestStep lam cand cemb sel) none = some (i, s) →
        i < n ∧ (cand.getD i (-1, 0)).1 ∉ sel ∧
        s = mmrScore lam cand cemb sel i ∧
        (∀ j < n, (cand.getD j (-1, 0)).1 ∉ sel →
          mmrScore lam cand cemb sel j ≤ s) ∧
        (∀ j < i, (cand.getD j (-1, 0)).1 ∉ sel →
          mmrScore lam cand cemb sel j < s)) := by
    intro n
    induction n with
    | zero => simp
    | succ n ih =>
      rw [List.range_succ, List.foldl_append, List.foldl_cons, List.foldl_nil]
      rcases hA : (List.range n).foldl (bestStep lam cand cemb sel) none with _ | jb
      · by_cases hmem : (cand.getD n (-1, 0)).1 ∈ sel
        · rw [bestStep, if_pos hmem]
          constructor
          · intro _ j hj
            rcases Nat.lt_succ_iff_lt_or_eq.mp hj with hj' | rfl
            · exact (ih.1 hA) j hj'
            · exact hmem
          · intro i s h
            simp at h
        · simp only [bestStep, if_neg hmem]
          constructor
          · intro h
            simp at h
          · intro i s h
            simp only [Option.some.injEq, Prod.mk.injEq] at h
            obtain ⟨rfl, rfl⟩ := h
            refine ⟨Nat.lt_succ_self n, hmem, rfl, ?_, ?_⟩
            · intro j hj hjn
              rcases Nat.lt_succ_iff_lt_or_eq.mp hj with hj' | rfl
              · exact absurd ((ih.1 hA) j hj') hjn
              · exact le_refl _
            · intro j hj hjn
              exact absurd ((ih.1 hA) j hj) hjn
      · obtain ⟨j0, bs⟩ := jb
        obtain ⟨hj0, hj0ns, hbs, hmax, hstrict⟩ := ih.2 j0 bs hA
        by_cases hmem : (cand.getD n (-1, 0)).1 ∈ sel
        · rw [bestStep, if_pos hmem]
          constructor
          · intro h
            simp at h
          · intro i s h
            simp only [Option.some.injEq, Prod.mk.injEq] at h
            obtain ⟨rfl, rfl⟩ := h
            refine ⟨Nat.lt_succ_of_lt hj0, hj0ns, hbs, ?_, hstrict⟩
            intro j hj hjn
            rcases Nat.lt_succ_iff_lt_or_eq.mp hj with hj' | rfl
            · exact hmax j hj' hjn
            · exact absurd hmem hjn
        · simp only [bestStep, if_neg hmem]
          by_cases hlt : bs < mmrScore lam cand cemb sel n
          · rw [if_pos hlt]
            constructor
            · intro h
              simp at h
            · intro i s h
              simp only [Option.some.injEq, Prod.mk.injEq] at h
              obtain ⟨rfl, rfl⟩ := h
              refine ⟨Nat.lt_succ_self n, hmem, rfl, ?_, ?_⟩
              · intro j hj hjn
                rcases Nat.lt_succ_iff_lt_or_eq.mp hj with hj' | rfl
                · exact le_of_lt (lt_of_le_of_lt (hmax j hj' hjn) hlt)
                · exact le_refl _
              · intro j hj hjn
                exact lt_of_le_of_lt (hmax j hj hjn) hlt
          · rw [if_neg hlt]
            constructor
            · intro h
              simp at h
            · intro i s h
              simp only [Option.some.injEq, Prod.mk.injEq] at h
              obtain ⟨rfl, rfl⟩ := h
              refine ⟨Nat.lt_succ_of_lt hj0, hj0ns, hbs, ?_, hstrict⟩
              intro j hj hjn
              rcases Nat.lt_succ_iff_lt_or_eq.mp hj with hj' | rfl
              · exact hmax j hj' hjn
              · exact le_of_not_lt hlt
  exact key cand.length

/-! ## The selection loop -/

/-- The chunk stored at (non-negative) index value `v`. -/
def chunkAt (md : List Chunk) (v : ℤ) : Chunk := md.getD v.toNat ⟨0, "", ""⟩

theorem pyGet_natCast (l : List α) (i : ℕ) : pyGet l (i : ℤ) = l.get? i := by
  rw [pyGet, if_pos (Int.natCast_nonneg i), Int.toNat_natCast]

theorem getD_fst_mem (cand : List (ℤ × ℚ)) (i : ℕ) (h : i < cand.length) :
    (cand.getD i (-1, 0)).1 ∈ cand.map Prod.fst := by
  rw [List.getD_eq_getElem _ _ h]
  exact List.mem_map_of_mem _ (List.getElem_mem h)

theorem mem_map_fst_position (cand : List (ℤ × ℚ)) (v : ℤ)
    (h : v ∈ cand.map Prod.fst) :
    ∃ j, ∃ _ : j < cand.length, (cand.getD j (-1, 0)).1 = v := by
  obtain ⟨j, hj, e⟩ := List.mem_iff_getElem.mp h
  rw [List.length_map] at hj
  refine ⟨j, hj, ?_⟩
  rw [List.getD_eq_getElem _ _ hj]
  rw [List.getElem_map] at e
  exact e

/-- When every candidate index value is valid and non-negative, the
comprehension of line 116 succeeds and is positionally aligned with the
candidate list. -/
theorem candChunks_all_valid (md : List Chunk) (ids : List ℤ)
    (h : ∀ i ∈ ids, 0 ≤ i ∧ i < (md.length : ℤ)) :
    candChunks md ids = .ok (ids.map (chunkAt md)) := by
  induction ids with
  | nil => rfl
  | cons i is ih =>
    have hi := h i (List.mem_cons_self _ _)
    rw [candChunks, if_pos hi.2]
    have hlt : i.toNat < md.length := by omega
    have hp : pyGet md i = some (chunkAt md i) := by
      rw [pyGet, if_pos hi.1, List.get?_eq_get hlt, chunkAt,
        List.getD_eq_getElem _ _ hlt]
      rfl
    rw [hp, ih (fun j hj => h j (List.mem_cons_of_mem _ hj))]
    rfl

/-- Whatever the selection loop returns on success extends its
accumulator, and every appended element carries an `mmr_score`. -/
theorem mmrLoop_extends (lam : ℚ) (cand : List (ℤ × ℚ)) (cemb : List Vec)
    (cch : List Chunk) (topk : ℕ) :
    ∀ (fuel : ℕ) (sel : List ℤ) (acc res : List RetrievedChunk),
      mmrLoop lam cand cemb cch topk fuel sel acc = .ok res →
      ∃ ext, res = acc ++ ext ∧ ∀ r ∈ ext, r.mmr_score.isSome := by
  intro fuel
  induction fuel with
  | zero =>
    intro sel acc res h
    simp only [mmrLoop] at h
    cases h
    exact ⟨[], by simp, by simp⟩
  | succ fuel ih =>
    intro sel acc res h
    simp only [mmrLoop] at h
    by_cases hg : sel.length < topk ∧ sel.length < cand.length
    · rw [if_pos hg] at h
      cases hB : mmrBest lam cand cemb sel with
      | none =>
        simp only [hB] at h
        exact Except.noConfusion h
      | some p =>
        obtain ⟨i, s⟩ := p
        simp only [hB] at h
        cases hP : pyGet cch (i : ℤ) with
        | none =>
          simp only [hP] at h
          exact Except.noConfusion h
        | some c =>
          simp only [hP] at h
          obtain ⟨ext, he, hsome⟩ := ih _ _ _ h
          refine ⟨{ chunk := c, mmr_score := some s } :: ext, by simp [he], ?_⟩
          intro r hr
          rcases List.mem_cons.mp hr with rfl | hr'
          · simp
          · exact hsome r hr'
    · rw [if_neg hg] at h
      cases h
      exact ⟨[], by simp, by simp⟩

/-- Correctness of the selection loop on a pool of pairwise-distinct
candidate index values: it succeeds, returns exactly `topk` results, and
the selected index values are pairwise-distinct members of the pool, the
result chunks being the metadata entries at those indices in selection
order. -/
theorem mmrLoop_ok (lam : ℚ) (cand : List (ℤ × ℚ)) (cemb : List Vec)
    (md : List Chunk) (cch : List Chunk) (topk : ℕ)
    (hcch : cch = cand.map (fun p => chunkAt md p.1))
    (hnd : (cand.map Prod.fst).Nodup)
    (hlen : topk ≤ cand.length) :
    ∀ (fuel : ℕ) (sel : List ℤ) (acc : List RetrievedChunk),
      sel.Nodup → (∀ v ∈ sel, v ∈ cand.map Prod.fst) →
      sel.length ≤ topk → topk ≤ sel.length + fuel →
      acc.map RetrievedChunk.chunk = sel.map (chunkAt md) →
      ∃ extSel, (sel ++ extSel).Nodup ∧
        (∀ v ∈ sel ++ extSel, v ∈ cand.map Prod.fst) ∧
        (sel ++ extSel).length = topk ∧
        ∃ res, mmrLoop lam cand cemb cch topk fuel sel acc = .ok res ∧
          res.map RetrievedChunk.chunk = (sel ++ extSel).map (chunkAt md) := by
  intro fuel
  induction fuel with
  | zero =>
    intro sel acc hselnd hsub hle hge hacc
    have hsel : sel.length = topk := by omega
    refine ⟨[], by simpa using hselnd, by simpa using hsub, by simpa using hsel,
      acc, by simp [mmrLoop], by simpa using hacc⟩
  | succ fuel ih =>
    intro sel acc hselnd hsub hle hge hacc
    by_cases hg : sel.length < topk
    · have hgc : sel.length < cand.length := lt_of_lt_of_le hg hlen
      have hguard : sel.length < topk ∧ sel.length < cand.length := ⟨hg, hgc⟩
      obtain ⟨v, hvids, hvns⟩ := exists_unselected (cand.map Prod.fst) sel hnd
        (by rw [List.length_map]; exact hgc)
      cases hB : mmrBest lam cand cemb sel with
      | none =>
        exfalso
        obtain ⟨j, hj, hjv⟩ := mem_map_fst_position cand v hvids
        exact hvns (hjv ▸ (mmrBest_spec lam cand cemb sel).1 hB j hj)
      | some p =>
        obtain ⟨i, s⟩ := p
        obtain ⟨hi, hins, -, -, -⟩ := (mmrBest_spec lam cand cemb sel).2 i s hB
        have hgd : cand.getD i (-1, 0) = cand.get ⟨i, hi⟩ := by
          rw [List.getD_eq_getElem _ _ hi]
          rfl
        have hP : pyGet cch (i : ℤ) = some (chunkAt md (cand.getD i (-1, 0)).1) := by
          rw [pyGet_natCast, hcch, List.get?_map, List.get?_eq_get hi,
            Option.map_some', hgd]
        set v' := (cand.getD i (-1, 0)).1 with hv'
        have hnd' : (sel ++ [v']).Nodup := by
          rw [List.nodup_append]
          refine ⟨hselnd, List.nodup_singleton _, ?_⟩
          intro a ha hav
          rw [List.mem_singleton] at hav
          exact hins (hav ▸ ha)
        have hsub' : ∀ w ∈ sel ++ [v'], w ∈ cand.map Prod.fst := by
          intro w hw
          rcases List.mem_append.mp hw with hw' | hw'
          · exact hsub w hw'
          · rw [List.mem_singleton] at hw'
            exact hw' ▸ getD_fst_mem cand i hi
        have hle' : (sel ++ [v']).length ≤ topk := by
          rw [List.length_append, List.length_singleton]
          omega
        have hge' : topk ≤ (sel ++ [v']).length + fuel := by
          rw [List.length_append, List.length_singleton]
          omega
        have hacc' :
            (acc ++ [({ chunk := chunkAt md v', mmr_score := some s } : RetrievedChunk)]).map
              RetrievedChunk.chunk = (sel ++ [v']).map (chunkAt md) := by
          rw [List.map_append, List.map_append, hacc]
          rfl
        obtain ⟨extSel, hnd2, hsub2, hlen2, res, hres, hmap2⟩ :=
          ih (sel ++ [v'])
            (acc ++ [({ chunk := chunkAt md v', mmr_score := some s } : RetrievedChunk)])
            hnd' hsub' hle' hge' hacc'
        refine ⟨[v'] ++ extSel, ?_, ?_, ?_, res, ?_, ?_⟩
        · rw [← List.append_assoc]
          exact hnd2
        · intro w hw
          rw [← List.append_assoc] at hw
          exact hsub2 w hw
        · rw [← List.append_assoc]
          exact hlen2
        · simp only [mmrLoop]
          rw [if_pos hguard]
          simp only [hB, hP]
          exact hres
        · rw [← List.append_assoc]
          exact hmap2
    · have hsel : sel.length = topk := by omega
      refine ⟨[], by simpa using hselnd, by simpa using hsub, by simpa using hsel,
        acc, ?_, by simpa using hacc⟩
      simp only [mmrLoop]
      rw [if_neg (by omega)]

theorem pyGet_valid (md : List Chunk) (i : ℤ) (h0 : 0 ≤ i)
    (h1 : i < (md.length : ℤ)) : pyGet md i = some (chunkAt md i) := by
  have hlt : i.toNat < md.length := by omega
  rw [pyGet, if_pos h0, List.get?_eq_get hlt, chunkAt,
    List.getD_eq_getElem _ _ hlt]
  rfl

theorem pyGet_isSome (l : List α) (i : ℤ) (hg : -1 ≤ i)
    (hl : i < (l.length : ℤ)) (hne : 0 < l.length) : ∃ c, pyGet l i = some c := by
  by_cases h0 : 0 ≤ i
  · have hlt : i.toNat < l.length := by omega
    exact ⟨l.get ⟨i.toNat, hlt⟩, by rw [pyGet, if_pos h0, List.get?_eq_get hlt]⟩
  · have hi : i = -1 := by omega
    have h2 : 0 ≤ i + (l.length : ℤ) := by omega
    have hlt : (i + (l.length : ℤ)).toNat < l.length := by omega
    exact ⟨l.get ⟨(i + (l.length : ℤ)).toNat, hlt⟩,
      by rw [pyGet, if_neg h0, if_pos h2, List.get?_eq_get hlt]⟩

/-- `retrieve_similar`'s result loop succeeds whenever the index holds at
least one entry, since every search slot is then either a valid index or
the sentinel `-1`, both of which resolve. -/
theorem simResults_ok (md : List Chunk) (pairs : List (ℤ × ℚ))
    (h : ∀ p ∈ pairs, -1 ≤ p.1 ∧ p.1 < (md.length : ℤ)) (hmd : 0 < md.length) :
    ∃ rs, simResults md pairs = .ok rs := by
  induction pairs with
  | nil => exact ⟨[], rfl⟩
  | cons p t ih =>
    obtain ⟨i, d⟩ := p
    have hp := h (i, d) (List.mem_cons_self _ _)
    obtain ⟨c, hc⟩ := pyGet_isSome md i hp.1 hp.2 hmd
    obtain ⟨rs', hrs'⟩ := ih (fun p hp => h p (List.mem_cons_of_mem _ hp))
    refine ⟨{ chunk := c, similarity_score := some (score d) } :: rs', ?_⟩
    rw [simResults, if_pos hp.2, hc, hrs']
    rfl

/-- C3 (amended) — for every `λ ∈ [0,1]`, whenever the index holds at
least `fetch_k` entries with pairwise-distinct chunk identifiers and
`1 ≤ top_k ≤ fetch_k` (so the fetched pool consists of `fetch_k` distinct
real candidates), `retrieve_with_mmr` succeeds with exactly `top_k`
results, their chunk identifiers pairwise distinct, the first being the
nearest candidate; the output is the loop's selection order (the list is
emitted seed first, one element per greedy pick, never re-sorted). -/
theorem mmr_topk_distinct_of_distinct_pool
    (cl : EmbedClient) (st : RetrieverState) (q : String) (top_k : ℕ)
    (lam : ℚ) (fetch_k : ℕ)
    (hlam : 0 ≤ lam ∧ lam ≤ 1)
    (hv : st.valid) (hnd : (st.chunks_metadata.map Chunk.chunk_id).Nodup)
    (h1 : 1 ≤ top_k) (h2 : top_k ≤ fetch_k) (h3 : fetch_k ≤ st.vectors.length) :
    ∃ res, (retrieve_with_mmr cl st q top_k lam fetch_k).1 = .ok res ∧
      res.length = top_k ∧
      (res.map (fun r => r.chunk.chunk_id)).Nodup ∧
      res.head?.map RetrievedChunk.chunk =
        ((faissSearch st.vectors (cl.embedQ q) fetch_k).head?).map
          (fun p => chunkAt st.chunks_metadata p.1) := by
  have hvl : st.chunks_metadata.length = st.vectors.length := hv
  set md := st.chunks_metadata with hmd
  set cand := faissSearch st.vectors (cl.embedQ q) fetch_k with hcand
  have hndc : (cand.map Prod.fst).Nodup := faissSearch_fst_nodup _ _ h3
  have hbounds : ∀ p ∈ cand, 0 ≤ p.1 ∧ p.1 < (md.length : ℤ) := by
    intro p hp
    obtain ⟨hb1, hb2⟩ := faissSearch_bounds _ _ h3 p hp
    exact ⟨hb1, by rw [hvl]; exact hb2⟩
  have hidsb : ∀ i ∈ cand.map Prod.fst, 0 ≤ i ∧ i < (md.length : ℤ) := by
    intro i hi
    obtain ⟨p, hp, rfl⟩ := List.mem_map.mp hi
    exact hbounds p hp
  have hcc : candChunks md (cand.map Prod.fst) =
      .ok ((cand.map Prod.fst).map (chunkAt md)) :=
    candChunks_all_valid md _ hidsb
  have hlenc : cand.length = fetch_k := faissSearch_length _ _ _
  obtain ⟨p0, cand', hcons⟩ : ∃ p0 cand', cand = p0 :: cand' := by
    cases hc : cand with
    | nil => rw [hc] at hlenc; simp at hlenc; omega
    | cons a b => exact ⟨a, b, rfl⟩
  have hcch2 : (cand.map Prod.fst).map (chunkAt md) =
      cand.map (fun p => chunkAt md p.1) := by
    rw [List.map_map]
    rfl
  obtain ⟨extSel, hnd2, hsub2, hlen2, res, hres, hmap2⟩ :=
    mmrLoop_ok lam cand (cl.embedB (((cand.map Prod.fst).map (chunkAt md)).map Chunk.text))
      md ((cand.map Prod.fst).map (chunkAt md)) top_k hcch2 hndc
      (by omega) top_k [p0.1] [{ chunk := chunkAt md p0.1 }]
      (List.nodup_singleton _)
      (by
        intro v hv'
        rw [List.mem_singleton] at hv'
        rw [hv', hcons]
        exact List.mem_map_of_mem _ (List.mem_cons_self _ _))
      (by simpa using h1)
      (by simp)
      (by rfl)
  refine ⟨res, ?_, ?_, ?_, ?_⟩
  · simp only [retrieve_with_mmr, generate_query_embedding, get_batch_embeddings]
    rw [← hcand]
    simp only [hcc]
    rw [hcons]
    simp only [List.map_cons, List.head?_cons]
    rw [hcons] at hres
    simp only [List.map_cons] at hres
    exact hres
  · have hl1 : res.length = (res.map RetrievedChunk.chunk).length :=
      (List.length_map _ _).symm
    rw [hl1, hmap2, List.length_map]
    exact hlen2
  · have hmapid : res.map (fun r => r.chunk.chunk_id) =
        ([p0.1] ++ extSel).map (fun v => (chunkAt md v).chunk_id) := by
      have e1 : res.map (fun r => r.chunk.chunk_id) =
          (res.map RetrievedChunk.chunk).map Chunk.chunk_id := by
        rw [List.map_map]
        rfl
      rw [e1, hmap2, List.map_map]
      rfl
    rw [hmapid]
    refine List.Nodup.map_on ?_ hnd2
    intro x hx y hy hxy
    obtain ⟨hx0, hx1⟩ := hidsb x (hsub2 x hx)
    obtain ⟨hy0, hy1⟩ := hidsb y (hsub2 y hy)
    have hxl : x.toNat < md.length := by omega
    have hyl : y.toNat < md.length := by omega
    have hinj := List.nodup_iff_injective_getElem.mp hnd
    have hgx : (md.map Chunk.chunk_id).get ⟨x.toNat, by simpa using hxl⟩ =
        (chunkAt md x).chunk_id := by
      rw [List.get_eq_getElem, List.getElem_map, chunkAt,
        List.getD_eq_getElem _ _ hxl]
    have hgy : (md.map Chunk.chunk_id).get ⟨y.toNat, by simpa using hyl⟩ =
        (chunkAt md y).chunk_id := by
      rw [List.get_eq_getElem, List.getElem_map, chunkAt,
        List.getD_eq_getElem _ _ hyl]
    have heq2 : (md.map Chunk.chunk_id).get ⟨x.toNat, by simpa using hxl⟩ =
        (md.map Chunk.chunk_id).get ⟨y.toNat, by simpa using hyl⟩ := by
      rw [hgx, hgy, hxy]
    have hfin : (⟨x.toNat, by simpa using hxl⟩ : Fin (md.map Chunk.chunk_id).length) =
        (⟨y.toNat, by simpa using hyl⟩ : Fin (md.map Chunk.chunk_id).length) :=
      hinj heq2
    have hxy' : x.toNat = y.toNat := by
      simpa using congrArg Fin.val hfin
    omega
  · rw [hcons, List.head?_cons, Option.map_some']
    have hse : [p0.1] ++ extSel = p0.1 :: extSel := rfl
    rw [hse] at hmap2
    cases hr : res with
    | nil => rw [hr] at hmap2; simp at hmap2
    | cons r rs' =>
      rw [hr] at hmap2
      simp only [List.map_cons, List.cons.injEq] at hmap2
      rw [List.head?_cons, Option.map_some', hmap2.1]

/-- C4 — on a non-empty index, the first element appended by
`retrieve_with_mmr` is unconditionally the pool's nearest candidate —
the entry minimal in (distance, positional index) over all indexed
entries — and it is the same chunk that `retrieve_similar` ranks first
for the same query (for every `lambda_mult`, hence in particular for
`lambda_mult = 1`, and every `top_k`/`k`). -/
theorem mmr_seed_nearest_eq_plain_head
    (cl : EmbedClient) (st : RetrieverState) (q : String)
    (top_k k fetch_k : ℕ) (lam : ℚ) (rs : List RetrievedChunk)
    (hv : st.valid) (hN : 0 < st.vectors.length) (hf : 1 ≤ fetch_k) (hk : 1 ≤ k)
    (hok : (retrieve_with_mmr cl st q top_k lam fetch_k).1 = .ok rs) :
    ∃ i0 d0 rest,
      sortKey (scoredEntries st.vectors (cl.embedQ q)) = (i0, d0) :: rest ∧
      (∀ p ∈ scoredEntries st.vectors (cl.embedQ q), keyLE (i0, d0) p) ∧
      rs.head?.map RetrievedChunk.chunk = some (chunkAt st.chunks_metadata i0) ∧
      ∃ r' rs', (retrieve_similar cl st q k).1 = .ok (r' :: rs') ∧
        r'.chunk = chunkAt st.chunks_metadata i0 := by
  have hvl : st.chunks_metadata.length = st.vectors.length := hv
  set md := st.chunks_metadata with hmdd
  set qe := cl.embedQ q with hqe
  have hmdpos : 0 < md.length := by omega
  have hslen : (sortKey (scoredEntries st.vectors qe)).length = st.vectors.length :=
    sortKey_scored_length _ _
  obtain ⟨x, rest, hxs⟩ : ∃ x rest, sortKey (scoredEntries st.vectors qe) = x :: rest := by
    cases hs : sortKey (scoredEntries st.vectors qe) with
    | nil => rw [hs] at hslen; simp at hslen; omega
    | cons a b => exact ⟨a, b, rfl⟩
  obtain ⟨i0, d0⟩ := x
  have hmin : ∀ p ∈ scoredEntries st.vectors qe, keyLE (i0, d0) p := by
    intro p hp
    have hp' : p ∈ sortKey (scoredEntries st.vectors qe) :=
      (sortKey_perm _).mem_iff.mpr hp
    rw [hxs] at hp'
    rcases List.mem_cons.mp hp' with rfl | hp''
    · exact keyLE_refl _
    · have hsort := sorted_sortKey (scoredEntries st.vectors qe)
      rw [hxs, List.sorted_cons] at hsort
      exact hsort.1 p hp''
  have hx_mem : ((i0, d0) : ℤ × ℚ) ∈ scoredEntries st.vectors qe := by
    have hm : ((i0, d0) : ℤ × ℚ) ∈ sortKey (scoredEntries st.vectors qe) := by
      rw [hxs]
      exact List.mem_cons_self _ _
    exact (sortKey_perm _).mem_iff.mp hm
  have hib := scoredEntries_bounds st.vectors qe _ hx_mem
  have hi0md : i0 < (md.length : ℤ) := by rw [hvl]; exact hib.2
  have hsearch : ∀ k' : ℕ, 1 ≤ k' → ∃ tail,
      faissSearch st.vectors qe k' = (i0, d0) :: tail ∧
      ∀ p ∈ tail, -1 ≤ p.1 ∧ p.1 < (md.length : ℤ) := by
    intro k' hk'
    obtain ⟨k'', rfl⟩ : ∃ k'', k' = k'' + 1 := ⟨k' - 1, by omega⟩
    rw [faissSearch, hxs, List.take_succ_cons]
    refine ⟨rest.take k'' ++
      List.replicate (k'' + 1 - ((i0, d0) :: rest.take k'').length) (-1, fltMax),
      by rw [List.cons_append], ?_⟩
    intro p hp
    rcases List.mem_append.mp hp with hp1 | hp2
    · have hpr : p ∈ rest := List.mem_of_mem_take hp1
      have hps : p ∈ scoredEntries st.vectors qe := by
        refine (sortKey_perm _).mem_iff.mp ?_
        rw [hxs]
        exact List.mem_cons_of_mem _ hpr
      obtain ⟨hb1, hb2⟩ := scoredEntries_bounds st.vectors qe p hps
      refine ⟨by omega, by rw [hvl]; exact hb2⟩
    · have hpe : p = ((-1 : ℤ), fltMax) := List.eq_of_mem_replicate hp2
      rw [hpe]
      constructor
      · omega
      · show (-1 : ℤ) < (md.length : ℤ)
        omega
  obtain ⟨tailM, hsM, htailM⟩ := hsearch fetch_k hf
  simp only [retrieve_with_mmr, generate_query_embedding, get_batch_embeddings] at hok
  rw [hsM] at hok
  cases hcc : candChunks md (((i0, d0) :: tailM).map Prod.fst) with
  | error e =>
    rw [hcc] at hok
    simp at hok
  | ok cch =>
    rw [hcc] at hok
    have hexp : candChunks md ((i0 : ℤ) :: tailM.map Prod.fst) = .ok cch := by
      simpa using hcc
    rw [candChunks, if_pos hi0md, pyGet_valid md i0 hib.1 hi0md] at hexp
    cases hcct : candChunks md (tailM.map Prod.fst) with
    | error e =>
      rw [hcct] at hexp
      simp [Except.map] at hexp
    | ok cs =>
      rw [hcct] at hexp
      simp only [Except.map] at hexp
      injection hexp with hexp'
      subst hexp'
      simp only [List.map_cons, List.head?_cons] at hok
      obtain ⟨ext, hext, -⟩ := mmrLoop_extends lam ((i0, d0) :: tailM) _ _ top_k
        top_k [i0] [{ chunk := chunkAt md i0 }] rs hok
      obtain ⟨tailS, hsS, htailS⟩ := hsearch k hk
      obtain ⟨rs', hrs'⟩ := simResults_ok md tailS htailS hmdpos
      refine ⟨i0, d0, rest, hxs, hmin, ?_,
        { chunk := chunkAt md i0, similarity_score := some (score d0) }, rs', ?_, rfl⟩
      · rw [hext]
        rfl
      · simp only [retrieve_similar, generate_query_embedding]
        rw [hsS, simResults, if_pos hi0md, pyGet_valid md i0 hib.1 hi0md, hrs']
        rfl

/-- C7 (amended) — determinism of tie-breaking: the candidate pool is
iterated in search order, which is ascending (distance, positional index)
— so candidates of equal distance are ordered by ascending positional
index — and within one MMR round a tie on the highest score keeps the
*earliest pool position* (the strict `>` of line 153): the selected
position is unselected, carries the recorded score, is not beaten by any
unselected position, and strictly beats every earlier unselected one.
(The earliest pool position is the tied candidate of smallest distance,
then smallest index — not in general the smallest original index.) -/
theorem mmr_tie_first_position :
    (∀ (vecs : List Vec) (q : Vec),
      (sortKey (scoredEntries vecs q)).Sorted keyLE) ∧
    (∀ (lam : ℚ) (cand : List (ℤ × ℚ)) (cemb : List Vec) (sel : List ℤ)
        (i : ℕ) (s : ℚ), mmrBest lam cand cemb sel = some (i, s) →
      i < cand.length ∧ (cand.getD i (-1, 0)).1 ∉ sel ∧
      s = mmrScore lam cand cemb sel i ∧
      (∀ j < cand.length, (cand.getD j (-1, 0)).1 ∉ sel →
        mmrScore lam cand cemb sel j ≤ s) ∧
      (∀ j < i, (cand.getD j (-1, 0)).1 ∉ sel →
        mmrScore lam cand cemb sel j < s)) :=
  ⟨fun vecs q => sorted_sortKey (scoredEntries vecs q),
   fun lam cand cemb sel i s h => (mmrBest_spec lam cand cemb sel).2 i s h⟩

/-- C8 (amended) — score fields by mode: in every successful
`retrieve_with_mmr` result the first (seed) element carries *neither*
score field, while every subsequent element carries an `mmr_score`; and
every `retrieve_similar` result element carries a `similarity_score` and
no `mmr_score`. -/
theorem score_fields_by_mode :
    (∀ (cl : EmbedClient) (st : RetrieverState) (q : String) (top_k : ℕ)
        (lam : ℚ) (fetch_k : ℕ) (r0 : RetrievedChunk) (rest : List RetrievedChunk),
      (retrieve_with_mmr cl st q top_k lam fetch_k).1 = .ok (r0 :: rest) →
      r0.similarity_score = none ∧ r0.mmr_score = none ∧
        ∀ r ∈ rest, r.mmr_score.isSome) ∧
    (∀ (md : List Chunk) (pairs : List (ℤ × ℚ)) (rs : List RetrievedChunk),
      simResults md pairs = .ok rs →
      ∀ r ∈ rs, r.similarity_score.isSome ∧ r.mmr_score = none) := by
  constructor
  · intro cl st q top_k lam fetch_k r0 rest hok
    simp only [retrieve_with_mmr, generate_query_embedding, get_batch_embeddings] at hok
    cases hcc : candChunks st.chunks_metadata
        ((faissSearch st.vectors (cl.embedQ q) fetch_k).map Prod.fst) with
    | error e =>
      simp only [hcc] at hok
      exact Except.noConfusion hok
    | ok cch =>
      simp only [hcc] at hok
      cases hh1 : ((faissSearch st.vectors (cl.embedQ q) fetch_k).map Prod.fst).head? with
      | none =>
        simp only [hh1] at hok
        exact Except.noConfusion hok
      | some i0 =>
        simp only [hh1] at hok
        cases hh2 : cch.head? with
        | none =>
          simp only [hh2] at hok
          exact Except.noConfusion hok
        | some c0 =>
          simp only [hh2] at hok
          obtain ⟨ext, hext, hsome⟩ := mmrLoop_extends lam
            (faissSearch st.vectors (cl.embedQ q) fetch_k) _ cch top_k top_k
            [i0] [{ chunk := c0 }] (r0 :: rest) hok
          have hext' : r0 :: rest = ({ chunk := c0 } : RetrievedChunk) :: ext := hext
          injection hext' with h1 h2
          subst h1
          subst h2
          exact ⟨rfl, rfl, hsome⟩
  · intro md pairs
    induction pairs with
    | nil =>
      intro rs h r hr
      simp only [simResults] at h
      cases h
      simp at hr
    | cons p rest ih =>
      intro rs h r hr
      obtain ⟨i, d⟩ := p
      simp only [simResults] at h
      by_cases hc : (i : ℤ) < (md.length : ℤ)
      · rw [if_pos hc] at h
        cases hg : pyGet md i with
        | none => rw [hg] at h; cases h
        | some c =>
          rw [hg] at h
          cases hrest : simResults md rest with
          | error e => rw [hrest] at h; cases h
          | ok rs' =>
            rw [hrest] at h
            simp only [Except.map] at h
            cases h
            rcases List.mem_cons.mp hr with rfl | h2
            · exact ⟨rfl, rfl⟩
            · exact ih rs' hrest r h2
      · rw [if_neg hc] at h
        exact ih rs h r hr

/-- C9 (amended) — embedding-request counts: `retrieve_similar` issues
exactly one request, the query `[q]`; a successful `retrieve_with_mmr`
issues exactly two — the query request first, then one batched request
for the candidate texts (`_get_batch_embeddings`, line 129);
`retrieve_with_context` with `use_mmr = false` issues exactly the one
query request for its built query. -/
theorem embedding_request_counts :
    (∀ (cl : EmbedClient) (st : RetrieverState) (q : String) (top_k : ℕ),
      (retrieve_similar cl st q top_k).2 = [[q]]) ∧
    (∀ (cl : EmbedClient) (st : RetrieverState) (q : String) (top_k : ℕ)
        (lam : ℚ) (fetch_k : ℕ) (rs : List RetrievedChunk),
      (retrieve_with_mmr cl st q top_k lam fetch_k).1 = .ok rs →
      (retrieve_with_mmr cl st q top_k lam fetch_k).2.length = 2 ∧
      (retrieve_with_mmr cl st q top_k lam fetch_k).2.head? = some [q]) ∧
    (∀ (cl : EmbedClient) (st : RetrieverState) (p : PersonaInfo)
        (topic : String) (top_k : ℕ),
      (retrieve_with_context cl st p topic top_k false).2 =
        [[buildContextQuery p topic]]) := by
  refine ⟨fun cl st q top_k => rfl, ?_, fun cl st p topic top_k => rfl⟩
  intro cl st q top_k lam fetch_k rs hok
  simp only [retrieve_with_mmr, generate_query_embedding, get_batch_embeddings] at hok ⊢
  cases hcc : candChunks st.chunks_metadata
      ((faissSearch st.vectors (cl.embedQ q) fetch_k).map Prod.fst) with
  | error e =>
    simp only [hcc] at hok
    exact Except.noConfusion hok
  | ok cch =>
    simp only [hcc] at hok ⊢
    cases hh1 : ((faissSearch st.vectors (cl.embedQ q) fetch_k).map Prod.fst).head? with
    | none =>
      simp only [hh1] at hok
      exact Except.noConfusion hok
    | some i0 =>
      simp only [hh1] at hok ⊢
      cases hh2 : cch.head? with
      | none =>
        simp only [hh2] at hok
        exact Except.noConfusion hok
      | some c0 =>
        simp only [hh2]
        exact ⟨rfl, rfl⟩

/-! ## Witnesses: the theorems above applied at concrete inputs -/

theorem similarity_score_witness :
    score 0 = 1 ∧ (0 < score 1 ∧ score 1 ≤ 1) ∧ score 2 < score 1 ∧
    simResults [chA0] [((0 : ℤ), (1 : ℚ))] =
      .ok [{ chunk := chA0, similarity_score := some (score 1) }] ∧
    ∃ p ∈ [((0 : ℤ), (1 : ℚ))],
      ({ chunk := chA0, similarity_score := some (score 1) } :
        RetrievedChunk).similarity_score = some (score p.2) ∧
      pyGet [chA0] p.1 = some chA0 := by
  have hs : simResults [chA0] [((0 : ℤ), (1 : ℚ))] =
      .ok [{ chunk := chA0, similarity_score := some (score 1) }] := rfl
  refine ⟨similarity_score_spec.1,
    similarity_score_spec.2.1 1 (by norm_num),
    similarity_score_spec.2.2.1 1 2 (by norm_num) (by norm_num), hs, ?_⟩
  obtain ⟨p, hp, h1, h2⟩ := similarity_score_spec.2.2.2 [chA0]
    [((0 : ℤ), (1 : ℚ))] _ hs _ (List.mem_singleton.mpr rfl)
  exact ⟨p, hp, h1, h2⟩

theorem mmr_topk_distinct_witness :
    ((0 : ℚ) ≤ 1/2 ∧ (1 : ℚ)/2 ≤ 1) ∧ stB.valid ∧
    (stB.chunks_metadata.map Chunk.chunk_id).Nodup ∧
    ∃ res, (retrieve_with_mmr clB stB "q" 2 (1/2) 2).1 = .ok res ∧
      res.length = 2 ∧ (res.map (fun r => r.chunk.chunk_id)).Nodup ∧
      res.head?.map RetrievedChunk.chunk =
        ((faissSearch stB.vectors (clB.embedQ "q") 2).head?).map
          (fun p => chunkAt stB.chunks_metadata p.1) := by
  refine ⟨⟨by norm_num, by norm_num⟩, rfl, by decide, ?_⟩
  exact mmr_topk_distinct_of_distinct_pool clB stB "q" 2 (1/2) 2
    ⟨by norm_num, by norm_num⟩ rfl (by decide) (by decide) (by decide) (by decide)

theorem mmr_seed_nearest_witness :
    (retrieve_with_mmr clB stB "q" 2 1 2).1 =
      .ok [{ chunk := chA0 }, { chunk := chA1, mmr_score := some (1/2) }] ∧
    ∃ i0 d0 rest,
      sortKey (scoredEntries stB.vectors (clB.embedQ "q")) = (i0, d0) :: rest ∧
      (∀ p ∈ scoredEntries stB.vectors (clB.embedQ "q"), keyLE (i0, d0) p) ∧
      ([{ chunk := chA0 }, { chunk := chA1, mmr_score := some (1/2) }] :
          List RetrievedChunk).head?.map RetrievedChunk.chunk =
        some (chunkAt stB.chunks_metadata i0) ∧
      ∃ r' rs', (retrieve_similar clB stB "q" 1).1 = .ok (r' :: rs') ∧
        r'.chunk = chunkAt stB.chunks_metadata i0 := by
  have hok : (retrieve_with_mmr clB stB "q" 2 1 2).1 =
      .ok [{ chunk := chA0 }, { chunk := chA1, mmr_score := some (1/2) }] := by
    norm_num [retrieve_with_mmr, generate_query_embedding, get_batch_embeddings,
      faissSearch, scoredEntries, sqDist, sortKey, insertKey, keyLT, candChunks,
      pyGet, mmrLoop, mmrBest, bestStep, mmrScore, simToSelected, dot, score,
      stB, clB, chA0, chA1, List.range_succ, List.findIdx_cons, Except.map]
  exact ⟨hok, mmr_seed_nearest_eq_plain_head clB stB "q" 2 1 2 1 _ rfl
    (by decide) (by decide) (by decide) hok⟩

theorem mmr_tie_first_position_witness :
    mmrBest (1/2) (faissSearch stC.vectors (clC.embedQ "q") 3)
      (clC.embedB ["a", "c", "b"]) [0] = some (1, 1/10) ∧
    (sortKey (scoredEntries stC.vectors (clC.embedQ "q"))).Sorted keyLE ∧
    1 < (faissSearch stC.vectors (clC.embedQ "q") 3).length ∧
    ((faissSearch stC.vectors (clC.embedQ "q") 3).getD 1 (-1, 0)).1 ∉ ([0] : List ℤ) ∧
    (1 : ℚ)/10 = mmrScore (1/2) (faissSearch stC.vectors (clC.embedQ "q") 3)
      (clC.embedB ["a", "c", "b"]) [0] 1 := by
  have h : mmrBest (1/2) (faissSearch stC.vectors (clC.embedQ "q") 3)
      (clC.embedB ["a", "c", "b"]) [0] = some (1, 1/10) := by
    norm_num [mmrBest, bestStep, mmrScore, simToSelected, dot, score,
      faissSearch, scoredEntries, sqDist, sortKey, insertKey, keyLT, stC, clC,
      List.range_succ, List.findIdx_cons]
  have hc := mmr_tie_first_position.2 (1/2)
    (faissSearch stC.vectors (clC.embedQ "q") 3)
    (clC.embedB ["a", "c", "b"]) [0] 1 (1/10) h
  exact ⟨h, mmr_tie_first_position.1 stC.vectors (clC.embedQ "q"),
    hc.1, hc.2.1, hc.2.2.1⟩

theorem score_fields_witness :
    (retrieve_with_mmr clA stA "q" 2 (1/2) 2).1 =
      .ok [{ chunk := chA0 }, { chunk := chA1, mmr_score := some (1/4) }] ∧
    ({ chunk := chA0 } : RetrievedChunk).similarity_score = none ∧
    ({ chunk := chA0 } : RetrievedChunk).mmr_score = none ∧
    (∀ r ∈ [({ chunk := chA1, mmr_score := some (1/4) } : RetrievedChunk)],
      r.mmr_score.isSome) ∧
    simResults stA.chunks_metadata [((0 : ℤ), (0 : ℚ))] =
      .ok [{ chunk := chA0, similarity_score := some (score 0) }] ∧
    ∀ r ∈ [({ chunk := chA0, similarity_score := some (score 0) } :
        RetrievedChunk)], r.similarity_score.isSome ∧ r.mmr_score = none := by
  have hok : (retrieve_with_mmr clA stA "q" 2 (1/2) 2).1 =
      .ok [{ chunk := chA0 }, { chunk := chA1, mmr_score := some (1/4) }] := by
    norm_num [retrieve_with_mmr, generate_query_embedding, get_batch_embeddings,
      faissSearch, scoredEntries, sqDist, sortKey, insertKey, keyLT, candChunks,
      pyGet, mmrLoop, mmrBest, bestStep, mmrScore, simToSelected, dot, score,
      stA, clA, List.range_succ, List.findIdx_cons, Except.map]
  have hs : simResults stA.chunks_metadata [((0 : ℤ), (0 : ℚ))] =
      .ok [{ chunk := chA0, similarity_score := some (score 0) }] := rfl
  have h1 := score_fields_by_mode.1 clA stA "q" 2 (1/2) 2 _ _ hok
  have h2 := score_fields_by_mode.2 stA.chunks_metadata [((0 : ℤ), (0 : ℚ))] _ hs
  exact ⟨hok, h1.1, h1.2.1, h1.2.2, hs, h2⟩

theorem embedding_request_counts_witness :
    (retrieve_similar clD stD "q" 2).2 = [["q"]] ∧
    (retrieve_with_mmr clA stA "q" 2 (1/2) 2).1 =
      .ok [{ chunk := chA0 }, { chunk := chA1, mmr_score := some (1/4) }] ∧
    (retrieve_with_mmr clA stA "q" 2 (1/2) 2).2.length = 2 ∧
    (retrieve_with_mmr clA stA "q" 2 (1/2) 2).2.head? = some ["q"] ∧
    (retrieve_with_context clA stA {} "T" 3 false).2 =
      [[buildContextQuery {} "T"]] := by
  have hok : (retrieve_with_mmr clA stA "q" 2 (1/2) 2).1 =
      .ok [{ chunk := chA0 }, { chunk := chA1, mmr_score := some (1/4) }] := by
    norm_num [retrieve_with_mmr, generate_query_embedding, get_batch_embeddings,
      faissSearch, scoredEntries, sqDist, sortKey, insertKey, keyLT, candChunks,
      pyGet, mmrLoop, mmrBest, bestStep, mmrScore, simToSelected, dot, score,
      stA, clA, List.range_succ, List.findIdx_cons, Except.map]
  have h2 := embedding_request_counts.2.1 clA stA "q" 2 (1/2) 2 _ hok
  exact ⟨embedding_request_counts.1 clD stD "q" 2, hok, h2.1, h2.2,
    embedding_request_counts.2.2 clA stA {} "T" 3⟩
